import Mathlib

/-!
Verification development for the Look-And-Listen-To-Learn language-learning
client.  The definitions below are shallow embeddings of the TypeScript
source: times are rationals (all time literals in the source are small
decimals, exactly representable), JavaScript strings are Lean strings, the
optional boolean field `isFavorite?: boolean` is `Option Bool` (`none`
standing for an absent/undefined property), and fallible operations return
`Option`/`Except`.
-/

set_option allowUnsafeReducibility true

attribute [semireducible] Rat.add Rat.sub Rat.mul Rat.inv Rat.ofScientific

namespace LinguaSync

/-- Whitespace test matching the characters the JavaScript regex class
`\s` recognises on the ASCII plane (space, tab, newline, carriage return,
vertical tab, form feed). -/
def jsIsSpace (c : Char) : Bool :=
  c = ' ' || c = '\t' || c = '\n' || c = '\r' || c = '\x0b' || c = '\x0c'

/-- Helper for `jsSplitWs`: walks the character list one character at a
time.  The `Option` state is `some acc` while a word (reversed in `acc`)
is being built and `none` while inside a whitespace run; `out` collects
the finished pieces in reverse.  A whitespace run emits exactly one cut,
and a run that reaches the end of the input emits the trailing empty
piece that JavaScript's `split` produces. -/
def jsSplitWsAux : List Char → Option (List Char) → List String → List String
  | [], some acc, out => (acc.reverse.asString :: out).reverse
  | [], none, out => ("" :: out).reverse
  | c :: rest, some acc, out =>
    if jsIsSpace c then
      jsSplitWsAux rest none (acc.reverse.asString :: out)
    else
      jsSplitWsAux rest (some (c :: acc)) out
  | c :: rest, none, out =>
    if jsIsSpace c then
      jsSplitWsAux rest none out
    else
      jsSplitWsAux rest (some [c]) out

/-- Embedding of the JavaScript expression `s.split(/\s+/)`: splits at
each maximal whitespace run, keeping the empty pieces that JavaScript
produces at a leading or trailing run (so `" a"` splits into `["", "a"]`
and `""` splits into `[""]`). -/
def jsSplitWs (s : String) : List String :=
  jsSplitWsAux s.toList (some []) []

/-- Embedding of `text.split(/\s+/).length`, the word count the segment
merger computes. -/
def wordCount (s : String) : Nat :=
  (jsSplitWs s).length

/-- The `TranscriptionSegment` record of `types.ts`.  The source field
`end` is a Lean keyword, so it is written `«end»` here; `isFavorite` is
declared optional (`isFavorite?: boolean`) in the source, hence
`Option Bool`. -/
structure TranscriptionSegment where
  start : ℚ
  «end» : ℚ
  text : String
  translation : String
  idiomatic : String
  isFavorite : Option Bool
  deriving Repr, DecidableEq

/-- One merge step of `mergeShortSegments`: the object-spread update
`{...current, end: next.end, text: ..., translation: ..., idiomatic:
next.idiomatic || current.idiomatic}`.  The JavaScript `||` takes
`next.idiomatic` unless it is the empty string (falsy). -/
def mergeTwo (current next : TranscriptionSegment) : TranscriptionSegment :=
  { current with
    «end» := next.«end»
    text := current.text ++ " " ++ next.text
    translation := current.translation ++ " " ++ next.translation
    idiomatic := if next.idiomatic = "" then current.idiomatic else next.idiomatic }

/-- The merge condition of `mergeShortSegments`: the accumulator is still a
short filler (`wordCount < MIN_WORDS` with `MIN_WORDS = 4`) and lasts less
than two seconds. -/
def shortFiller (current : TranscriptionSegment) : Prop :=
  wordCount current.text < 4 ∧ current.«end» - current.start < 2

instance (current : TranscriptionSegment) : Decidable (shortFiller current) := by
  unfold shortFiller; infer_instance

/-- Loop of `mergeShortSegments`: `current` is the accumulator, the list
argument is the remaining input.  Merging folds the next segment into the
accumulator; otherwise the accumulator is committed and the next segment
becomes the new accumulator.  After the loop the final accumulator is
always committed. -/
def mergeGo (current : TranscriptionSegment) :
    List TranscriptionSegment → List TranscriptionSegment
  | [] => [current]
  | next :: rest =>
    if shortFiller current then
      mergeGo (mergeTwo current next) rest
    else
      current :: mergeGo next rest

/-- Embedding of `mergeShortSegments` from `geminiService.ts`: a single
left-to-right pass folding short filler segments into their successor. -/
def mergeShortSegments : List TranscriptionSegment → List TranscriptionSegment
  | [] => []
  | first :: rest => mergeGo first rest

/-- Loop of the specification's description of the merger (§4.1), written
the way the spec words it: an explicit accumulator `acc` plus an output
list `out` to which committed segments are appended, processing the
remaining input left to right.  Used to state the refinement claim
against `mergeShortSegments`. -/
def mergeSpecLoop (acc : TranscriptionSegment) (out : List TranscriptionSegment) :
    List TranscriptionSegment → List TranscriptionSegment
  | [] => out ++ [acc]
  | next :: rest =>
    if wordCount acc.text < 4 ∧ acc.«end» - acc.start < 2 then
      mergeSpecLoop (mergeTwo acc next) out rest
    else
      mergeSpecLoop next (out ++ [acc]) rest

/-- The Segment Merger as the specification describes it: accumulator
initialized to the first segment, committed segments collected in order,
final accumulator always committed; empty input yields empty output. -/
def mergeShortSegmentsSpec : List TranscriptionSegment → List TranscriptionSegment
  | [] => []
  | first :: rest => mergeSpecLoop first [] rest

/-- Single-space join of a list of strings, the notion of "joining text
fields in order with the single-space separators introduced at merge
points" used by the partition-preservation property. -/
def joinWords : List String → String
  | [] => ""
  | [s] => s
  | s :: rest => s ++ " " ++ joinWords rest

/-- The JavaScript boolean negation `!x` applied to the optional field
`isFavorite`: an absent value (`undefined`) is falsy, so its negation is
`true`. -/
def jsNot : Option Bool → Bool
  | none => true
  | some b => !b

/-- Embedding of `handleToggleFavorite` from `App.tsx` for an in-bounds
index: the segment list is copied and the segment at `index` is replaced
by an object-spread copy whose `isFavorite` is the JavaScript negation of
the old value (an out-of-bounds index leaves the list unchanged in this
model; the claims only concern in-bounds indices). -/
def handleToggleFavorite : List TranscriptionSegment → Nat → List TranscriptionSegment
  | [], _ => []
  | s :: rest, 0 => { s with isFavorite := some (jsNot s.isFavorite) } :: rest
  | s :: rest, i + 1 => s :: handleToggleFavorite rest i

/-- Embedding of the active-segment test in `TranscriptView`:
`currentTime >= segment.start && currentTime < segment.end`. -/
def isActive (currentTime : ℚ) (segment : TranscriptionSegment) : Bool :=
  decide (currentTime ≥ segment.start) && decide (currentTime < segment.«end»)

/-- Error values of the word-definition operation, tagged with the
provider that produced them so theorems can distinguish surfacing the
original (Gemini) failure from surfacing the fallback (DeepSeek)
failure. -/
inductive ProviderError where
  | gemini (message : String)
  | deepseek (message : String)
  deriving Repr, DecidableEq

/-- Embedding of `getWordDefinition` from `geminiService.ts`.  The outcome
of the primary Gemini request (including its JSON parse) is `primary`;
`deepseekConfigured` is the truthiness of `process.env.DEEPSEEK_API_KEY`;
the outcome of the whole DeepSeek attempt (`callDeepSeek` plus
`cleanAndParseJson`) is `secondary`.  On a primary failure the code
retries DeepSeek when the key is configured, and when that retry also
fails it executes `throw deepSeekError`; only when no DeepSeek key is
configured does it execute `throw geminiError`. -/
def getWordDefinition {α : Type} (primary : Except String α)
    (deepseekConfigured : Bool) (secondary : Except String α) :
    Except ProviderError α :=
  match primary with
  | .ok v => .ok v
  | .error geminiError =>
    if deepseekConfigured then
      match secondary with
      | .ok v => .ok v
      | .error deepSeekError => .error (.deepseek deepSeekError)
    else
      .error (.gemini geminiError)

/-- First regex replace of `cleanAndParseJson`:
`text.replace(/^ ```json\s*/, '')` (fence spelled with three backticks).
The anchored pattern matches only when the string starts with the
seven characters of the json fence marker, and its greedy `\s*` then
consumes the following whitespace. -/
def stripLeadingJsonFence (cs : List Char) : List Char :=
  if cs.take 7 = "```json".toList then
    (cs.drop 7).dropWhile jsIsSpace
  else
    cs

/-- Second regex replace of `cleanAndParseJson`:
`.replace(/\s*```$/, '')`.  The anchored pattern matches only when the
string ends with the three-backtick fence marker, and its greedy `\s*`
consumes the whitespace run immediately before it. -/
def stripTrailingFence (cs : List Char) : List Char :=
  if cs.reverse.take 3 = ['`', '`', '`'] then
    ((cs.reverse.drop 3).dropWhile jsIsSpace).reverse
  else
    cs

/-- The cleaning stage of `cleanAndParseJson`: both replaces, leading
fence first. -/
def cleanText (text : String) : String :=
  (stripTrailingFence (stripLeadingJsonFence text.toList)).asString

/-- Embedding of `cleanAndParseJson` from `geminiService.ts`.  The browser
builtin `JSON.parse` is abstracted as `parse` (returning `none` when it
would throw); on a parse failure the function throws
`Error("Failed to parse AI response")` instead of returning a value. -/
def cleanAndParseJson {α : Type} (parse : String → Option α) (text : String) :
    Except String α :=
  match parse (cleanText text) with
  | some v => .ok v
  | none => .error "Failed to parse AI response"

/-- Value of a character in the standard base64 alphabet (stated on the
character's code point: 65-90 is A-Z, 97-122 is a-z, 48-57 is 0-9),
`none` for a character outside the alphabet. -/
def b64Val (c : Char) : Option Nat :=
  if 65 ≤ c.toNat ∧ c.toNat ≤ 90 then some (c.toNat - 65)
  else if 97 ≤ c.toNat ∧ c.toNat ≤ 122 then some (c.toNat - 97 + 26)
  else if 48 ≤ c.toNat ∧ c.toNat ≤ 57 then some (c.toNat - 48 + 52)
  else if c = '+' then some 62
  else if c = '/' then some 63
  else none

/-- Maps a list of characters to their base64 sextet values, failing if
any character is outside the alphabet. -/
def b64Sextets : List Char → Option (List Nat)
  | [] => some []
  | c :: rest =>
    match b64Val c, b64Sextets rest with
    | some v, some vs => some (v :: vs)
    | _, _ => none

/-- Reassembles base64 sextets into bytes, group of four at a time; a
leftover of two or three sextets contributes one or two bytes (their
trailing bits are discarded), and a leftover of one sextet is an error,
as in the forgiving-base64 decode that `atob` implements. -/
def b64Bytes : List Nat → Option (List Nat)
  | [] => some []
  | [_] => none
  | [a, b] => some [a * 4 + b / 16]
  | [a, b, c] => some [a * 4 + b / 16, b % 16 * 16 + c / 4]
  | a :: b :: c :: d :: rest =>
    match b64Bytes rest with
    | some bs => some ((a * 4 + b / 16) :: (b % 16 * 16 + c / 4) :: (c % 4 * 64 + d) :: bs)
    | none => none

/-- Whitespace and padding removal stage of the forgiving-base64 decode:
strip ASCII whitespace, then strip up to two trailing padding signs when
the remaining length is a multiple of four. -/
def atobUnpadded (s : String) : List Char :=
  let cs := s.toList.filter (fun c => !jsIsSpace c)
  if cs.length % 4 = 0 then
    if cs.reverse.take 2 = ['=', '='] then cs.dropLast.dropLast
    else if cs.reverse.take 1 = ['='] then cs.dropLast
    else cs
  else cs

/-- Decoding stage of the forgiving-base64 decode: a leftover of one
sextet is an error, otherwise the sextets are reassembled into bytes. -/
def atobDecode (u : List Char) : Option (List Nat) :=
  if u.length % 4 = 1 then none
  else
    match b64Sextets u with
    | some vs => b64Bytes vs
    | none => none

/-- Embedding of the browser builtin `atob` (WHATWG forgiving-base64
decode); the result is the byte list `binaryString` that `playPcmData`
reads with `charCodeAt`. -/
def atob (s : String) : Option (List Nat) :=
  atobDecode (atobUnpadded s)

/-- Reads consecutive byte pairs as little-endian signed 16-bit
integers, as `new Int16Array(bytes.buffer)` does on a little-endian
platform. -/
def int16OfBytes (lo hi : Nat) : Int :=
  let v := lo + 256 * hi
  if v < 32768 then (v : Int) else (v : Int) - 65536

/-- Collects the little-endian 16-bit samples of a byte list, two bytes
per sample; a trailing odd byte is never consumed (callers guard the
length). -/
def int16Samples : List Nat → List Int
  | lo :: hi :: rest => int16OfBytes lo hi :: int16Samples rest
  | _ => []

/-- Embedding of `playPcmData` from `audioUtils.ts`, up to the produced
channel samples: base64-decode the input with `atob`, view the byte
buffer as an `Int16Array` — which throws a `RangeError` (modelled as
`none`) when the byte length is odd, since an `Int16Array` byte length
must be a multiple of two — and divide each 16-bit value by `32768.0` to
obtain the `Float32` channel data. -/
def playPcmData (base64String : String) : Option (List ℚ) :=
  match atob base64String with
  | none => none
  | some bytes =>
    if bytes.length % 2 = 0 then
      some ((int16Samples bytes).map (fun v : Int => (v : ℚ) / 32768))
    else
      none

/-! Helper lemmas about the merger. -/

theorem joinWords_cons_of_ne_nil (a : String) (l : List String) (h : l ≠ []) :
    joinWords (a :: l) = a ++ " " ++ joinWords l := by
  cases l with
  | nil => exact absurd rfl h
  | cons b t => rfl

theorem joinWords_merge (a b : String) (l : List String) :
    joinWords ((a ++ " " ++ b) :: l) = joinWords (a :: b :: l) := by
  cases l with
  | nil => rfl
  | cons c t =>
    rw [joinWords_cons_of_ne_nil _ _ (by simp), joinWords_cons_of_ne_nil a _ (by simp),
      joinWords_cons_of_ne_nil b _ (by simp), String.append_assoc, String.append_assoc,
      String.append_assoc b]

theorem mergeGo_ne_nil : ∀ (l : List TranscriptionSegment) (c : TranscriptionSegment),
    mergeGo c l ≠ []
  | [], c => by simp [mergeGo]
  | n :: rest, c => by
    rw [mergeGo]
    split
    · exact mergeGo_ne_nil rest _
    · simp

theorem mergeGo_join : ∀ (l : List TranscriptionSegment) (c : TranscriptionSegment),
    joinWords ((mergeGo c l).map (fun s => s.text)) =
      joinWords (c.text :: l.map (fun s => s.text))
  | [], c => rfl
  | n :: rest, c => by
    rw [mergeGo]
    split
    · rw [mergeGo_join rest (mergeTwo c n)]
      show joinWords ((mergeTwo c n).text :: rest.map (fun s => s.text)) = _
      have htext : (mergeTwo c n).text = c.text ++ " " ++ n.text := rfl
      rw [htext, joinWords_merge]
      rfl
    · show joinWords (c.text :: (mergeGo n rest).map (fun s => s.text)) = _
      have hne : (mergeGo n rest).map (fun s => s.text) ≠ [] := by
        simp only [ne_eq, List.map_eq_nil_iff]
        exact mergeGo_ne_nil rest n
      rw [joinWords_cons_of_ne_nil _ _ hne, mergeGo_join rest n]
      show _ = joinWords (c.text :: n.text :: rest.map (fun s => s.text))
      rw [joinWords_cons_of_ne_nil c.text (n.text :: rest.map (fun s => s.text)) (by simp)]

theorem mergeGo_length : ∀ (l : List TranscriptionSegment) (c : TranscriptionSegment),
    (mergeGo c l).length ≤ l.length + 1
  | [], c => by simp [mergeGo]
  | n :: rest, c => by
    rw [mergeGo]
    split
    · have := mergeGo_length rest (mergeTwo c n)
      simp only [List.length_cons]
      omega
    · have := mergeGo_length rest n
      simp only [List.length_cons]
      omega

theorem getLast?_getD_cons {α : Type} (r : α) (rs : List α) (d₁ d₂ : α) :
    (r :: rs).getLast?.getD d₁ = (r :: rs).getLast?.getD d₂ := by
  induction rs generalizing r with
  | nil => rfl
  | cons x xs ih => rw [List.getLast?_cons_cons]; exact ih x

theorem mergeGo_last : ∀ (l : List TranscriptionSegment) (c : TranscriptionSegment),
    ((mergeGo c l).getLast?).map (fun s => s.«end») =
      some (((l.getLast?).getD c).«end»)
  | [], c => by simp [mergeGo]
  | n :: rest, c => by
    rw [mergeGo]
    split
    · rw [mergeGo_last rest (mergeTwo c n)]
      cases rest with
      | nil => rfl
      | cons r rs =>
        rw [List.getLast?_cons_cons, getLast?_getD_cons r rs (mergeTwo c n) c]
    · have hne := mergeGo_ne_nil rest n
      have hcons : (c :: mergeGo n rest).getLast? = (mergeGo n rest).getLast? := by
        cases hgo : mergeGo n rest with
        | nil => exact absurd hgo hne
        | cons x xs => rw [List.getLast?_cons_cons]
      rw [hcons, mergeGo_last rest n]
      cases rest with
      | nil => rfl
      | cons r rs =>
        rw [List.getLast?_cons_cons, getLast?_getD_cons r rs n c]

theorem mergeSpecLoop_eq : ∀ (l : List TranscriptionSegment) (acc : TranscriptionSegment)
    (out : List TranscriptionSegment), mergeSpecLoop acc out l = out ++ mergeGo acc l
  | [], acc, out => rfl
  | next :: rest, acc, out => by
    rw [mergeSpecLoop, mergeGo]
    by_cases h : wordCount acc.text < 4 ∧ acc.«end» - acc.start < 2
    · rw [if_pos h, if_pos (show shortFiller acc from h), mergeSpecLoop_eq]
    · rw [if_neg h, if_neg (show ¬shortFiller acc from h), mergeSpecLoop_eq,
        List.append_assoc]
      rfl

theorem mergeGo_of_none_short :
    ∀ (l : List TranscriptionSegment) (c : TranscriptionSegment),
      ¬shortFiller c → (∀ s ∈ l, ¬shortFiller s) → mergeGo c l = c :: l
  | [], c, _, _ => rfl
  | n :: rest, c, hc, hl => by
    rw [mergeGo, if_neg hc,
      mergeGo_of_none_short rest n (hl n (by simp)) (fun s hs => hl s (by simp [hs]))]

/-! Theorems for the claims about the Segment Merger. -/

/-- C2: for every non-empty input sequence, the merger's output satisfies
the partition-preserving fold property: the single-space join of the
output text fields equals the single-space join of the input text fields
(merge points introduce exactly the single-space separators), the output
is no longer than the input, and the last output segment's end time
equals the last input segment's end time. -/
theorem C2_merger_partition_fold (l : List TranscriptionSegment) (h : l ≠ []) :
    joinWords ((mergeShortSegments l).map (fun s => s.text)) =
        joinWords (l.map (fun s => s.text)) ∧
    (mergeShortSegments l).length ≤ l.length ∧
    ((mergeShortSegments l).getLast?).map (fun s => s.«end») =
        (l.getLast?).map (fun s => s.«end») := by
  cases l with
  | nil => exact absurd rfl h
  | cons first rest =>
    refine ⟨?_, ?_, ?_⟩
    · show joinWords ((mergeGo first rest).map (fun s => s.text)) = _
      rw [mergeGo_join]
      rfl
    · show (mergeGo first rest).length ≤ _
      rw [List.length_cons]
      exact mergeGo_length rest first
    · show ((mergeGo first rest).getLast?).map (fun s => s.«end») = _
      rw [mergeGo_last]
      cases rest with
      | nil => rfl
      | cons r rs =>
        rw [List.getLast?_cons_cons]
        cases hgl : (r :: rs).getLast? with
        | none => simp [List.getLast?] at hgl
        | some x => rfl

/-- C2 witness: the partition-preserving fold property evaluated on a
concrete two-segment input. -/
theorem C2_merger_partition_fold_witness :
    joinWords ((mergeShortSegments
        [⟨0, 1, "Hi", "", "", none⟩, ⟨1, 3, "there you are", "", "", none⟩]).map
        (fun s => s.text)) =
      joinWords (([⟨0, 1, "Hi", "", "", none⟩,
        ⟨1, 3, "there you are", "", "", none⟩] :
          List TranscriptionSegment).map (fun s => s.text)) ∧
    (mergeShortSegments
        [⟨0, 1, "Hi", "", "", none⟩, ⟨1, 3, "there you are", "", "", none⟩]).length ≤
      ([⟨0, 1, "Hi", "", "", none⟩, ⟨1, 3, "there you are", "", "", none⟩] :
          List TranscriptionSegment).length ∧
    ((mergeShortSegments
        [⟨0, 1, "Hi", "", "", none⟩, ⟨1, 3, "there you are", "", "", none⟩]).getLast?).map
        (fun s => s.«end») =
      (([⟨0, 1, "Hi", "", "", none⟩, ⟨1, 3, "there you are", "", "", none⟩] :
          List TranscriptionSegment).getLast?).map (fun s => s.«end») :=
  C2_merger_partition_fold
    [⟨0, 1, "Hi", "", "", none⟩, ⟨1, 3, "there you are", "", "", none⟩] (by decide)

/-- C4: the merger is the left-to-right accumulator fold the specification
describes.  The specification-side definition `mergeShortSegmentsSpec`
(explicit accumulator, committed-output list, merge when word count is
below four and duration below two seconds, text and translation joined
with a single space, `next.idiomatic` taken when non-empty) computes the
same function as the source's `mergeShortSegments`; the empty input
yields the empty output and a single-segment input is returned
unchanged. -/
theorem C4_merger_fold_refinement :
    mergeShortSegments ([] : List TranscriptionSegment) = [] ∧
    (∀ s : TranscriptionSegment, mergeShortSegments [s] = [s]) ∧
    (∀ l : List TranscriptionSegment, mergeShortSegmentsSpec l = mergeShortSegments l) := by
  refine ⟨rfl, fun s => rfl, fun l => ?_⟩
  cases l with
  | nil => rfl
  | cons first rest =>
    show mergeSpecLoop first [] rest = mergeGo first rest
    rw [mergeSpecLoop_eq]
    rfl

/-- C5: on the concrete three-segment input of the claim, the first
segment (one word, one second) is merged into the second, the combined
accumulator ("Hi there", two words, 1.5 seconds) still meets the merge
condition and is merged into the third, and the output is exactly one
segment spanning 0 to 4 with the full text. -/
theorem C5_merger_concrete_example :
    shortFiller ⟨0, 1, "Hi", "", "", none⟩ ∧
    shortFiller ⟨0, 1.5, "Hi there", "", "", none⟩ ∧
    (mergeShortSegments
        [⟨0, 1, "Hi", "", "", none⟩, ⟨1, 1.5, "there", "", "", none⟩,
         ⟨1.5, 4, "welcome to the show today", "", "", none⟩]).map
        (fun s => (s.start, s.«end», s.text)) =
      [((0 : ℚ), (4 : ℚ), "Hi there welcome to the show today")] := by
  refine ⟨by decide, by decide, by decide⟩

/-- C6: on an input in which no segment is below the merge threshold
(every segment has at least four words or lasts at least two seconds),
the merger is the identity, so applying it twice yields the same result
as applying it once. -/
theorem C6_merger_idempotent (l : List TranscriptionSegment)
    (h : ∀ s ∈ l, ¬shortFiller s) :
    mergeShortSegments (mergeShortSegments l) = mergeShortSegments l := by
  have hid : mergeShortSegments l = l := by
    cases l with
    | nil => rfl
    | cons first rest =>
      show mergeGo first rest = first :: rest
      exact mergeGo_of_none_short rest first (h first (by simp))
        (fun s hs => h s (by simp [hs]))
  rw [hid, hid]

/-- C6 witness: idempotence evaluated on a concrete list in which every
segment has at least four words. -/
theorem C6_merger_idempotent_witness :
    mergeShortSegments (mergeShortSegments
        [⟨0, 1, "now then my friend", "", "", none⟩,
         ⟨1, 3, "welcome to the show today", "", "", none⟩]) =
      mergeShortSegments
        [⟨0, 1, "now then my friend", "", "", none⟩,
         ⟨1, 3, "welcome to the show today", "", "", none⟩] :=
  C6_merger_idempotent
    [⟨0, 1, "now then my friend", "", "", none⟩,
     ⟨1, 3, "welcome to the show today", "", "", none⟩] (by decide)

/-! Theorems about the active-segment computation. -/

theorem isActive_iff (t : ℚ) (s : TranscriptionSegment) :
    isActive t s = true ↔ s.start ≤ t ∧ t < s.«end» := by
  simp [isActive, ge_iff_le]

/-- C7: the active-segment computation treats a segment's time range as
the half-open interval from start (inclusive) to end (exclusive), and in
particular a segment from 1 to 2 is active at 1.999999 and inactive at
exactly 2. -/
theorem C7_active_half_open :
    (∀ (t : ℚ) (s : TranscriptionSegment),
        isActive t s = true ↔ s.start ≤ t ∧ t < s.«end») ∧
    (∀ (txt tr idi : String) (fav : Option Bool),
        isActive 1.999999 ⟨1, 2, txt, tr, idi, fav⟩ = true ∧
        isActive 2 ⟨1, 2, txt, tr, idi, fav⟩ = false) := by
  refine ⟨isActive_iff, fun txt tr idi fav => ⟨?_, ?_⟩⟩
  · rw [isActive_iff]
    constructor <;> norm_num
  · rw [Bool.eq_false_iff, ne_eq, isActive_iff]
    norm_num

/-- C8: when the segments of a list are pairwise non-overlapping (no two
segments' half-open intervals share a time), at most one segment is
active at any current time. -/
theorem C8_active_at_most_one (l : List TranscriptionSegment)
    (h : l.Pairwise (fun a b => ∀ t : ℚ,
        ¬((a.start ≤ t ∧ t < a.«end») ∧ (b.start ≤ t ∧ t < b.«end»))))
    (t : ℚ) :
    (l.filter (fun s => isActive t s)).length ≤ 1 := by
  induction l with
  | nil => simp
  | cons a rest ih =>
    rw [List.pairwise_cons] at h
    obtain ⟨ha, hrest⟩ := h
    rw [List.filter_cons]
    by_cases hact : isActive t a
    · rw [if_pos (by simpa using hact)]
      have hnone : rest.filter (fun s => isActive t s) = [] := by
        rw [List.filter_eq_nil_iff]
        intro b hb hbact
        exact ha b hb t ⟨(isActive_iff t a).mp hact, (isActive_iff t b).mp hbact⟩
      rw [hnone]
      simp
    · rw [if_neg (by simpa using hact)]
      exact ih hrest

/-- C8 witness: two adjacent non-overlapping segments evaluated at a
time inside the first one. -/
theorem C8_active_at_most_one_witness :
    (([⟨0, 1, "a", "", "", none⟩, ⟨1, 2, "b", "", "", none⟩] :
        List TranscriptionSegment).filter
      (fun s => isActive (mkRat 1 2) s)).length ≤ 1 :=
  C8_active_at_most_one [⟨0, 1, "a", "", "", none⟩, ⟨1, 2, "b", "", "", none⟩]
    (by
      refine List.pairwise_cons.mpr ⟨?_, List.pairwise_singleton _ _⟩
      intro b hb t ht
      simp only [List.mem_singleton] at hb
      subst hb
      simp only at ht
      obtain ⟨⟨_, h1⟩, ⟨h2, _⟩⟩ := ht
      linarith)
    (mkRat 1 2)

/-! Theorems about the favorite toggle. -/

theorem toggle_length : ∀ (l : List TranscriptionSegment) (i : Nat),
    (handleToggleFavorite l i).length = l.length
  | [], _ => rfl
  | s :: rest, 0 => rfl
  | s :: rest, i + 1 => by
    simp only [handleToggleFavorite, List.length_cons, toggle_length rest i]

theorem toggle_getElem_ne : ∀ (l : List TranscriptionSegment) (i j : Nat), j ≠ i →
    (handleToggleFavorite l i)[j]? = l[j]?
  | [], _, _, _ => rfl
  | s :: rest, 0, 0, h => absurd rfl h
  | s :: rest, 0, j + 1, _ => by simp [handleToggleFavorite]
  | s :: rest, i + 1, 0, _ => by simp [handleToggleFavorite]
  | s :: rest, i + 1, j + 1, h => by
    simp only [handleToggleFavorite, List.getElem?_cons_succ]
    exact toggle_getElem_ne rest i j (fun hji => h (by omega))

theorem toggle_getElem_eq : ∀ (l : List TranscriptionSegment) (i : Nat)
    (s : TranscriptionSegment), l[i]? = some s →
    (handleToggleFavorite l i)[i]? =
      some { s with isFavorite := some (jsNot s.isFavorite) }
  | [], i, s, h => by simp at h
  | x :: rest, 0, s, h => by
    simp only [List.getElem?_cons_zero, Option.some_inj] at h
    subst h
    simp [handleToggleFavorite]
  | x :: rest, i + 1, s, h => by
    simp only [List.getElem?_cons_succ] at h
    simp only [handleToggleFavorite, List.getElem?_cons_succ]
    exact toggle_getElem_eq rest i s h

theorem toggle_toggle : ∀ (l : List TranscriptionSegment) (i : Nat)
    (s : TranscriptionSegment) (b : Bool), l[i]? = some s → s.isFavorite = some b →
    handleToggleFavorite (handleToggleFavorite l i) i = l
  | [], i, s, b, h, _ => by simp at h
  | x :: rest, 0, s, b, h, hb => by
    obtain ⟨st, en, tx, tr, idi, fav⟩ := x
    simp only [List.getElem?_cons_zero, Option.some_inj] at h
    subst h
    have hb' : fav = some b := hb
    subst hb'
    cases b <;> rfl
  | x :: rest, i + 1, s, b, h, hb => by
    simp only [List.getElem?_cons_succ] at h
    simp only [handleToggleFavorite, List.cons.injEq, true_and]
    exact toggle_toggle rest i s b h hb

/-- C3 counterexample: toggling twice at position 0 of a one-segment list
whose favorite flag is absent (the optional field `isFavorite?: boolean`
is undefined, as on every freshly transcribed segment) does not restore
the original list: the first toggle sets the flag to true and the second
to an explicit false, which is not bit-for-bit identical to the absent
flag. -/
theorem C3_toggle_counterexample :
    handleToggleFavorite
        (handleToggleFavorite [⟨0, 1, "a", "", "", none⟩] 0) 0 ≠
      [(⟨0, 1, "a", "", "", none⟩ : TranscriptionSegment)] ∧
    handleToggleFavorite
        (handleToggleFavorite [⟨0, 1, "a", "", "", none⟩] 0) 0 =
      [(⟨0, 1, "a", "", "", some false⟩ : TranscriptionSegment)] := by
  refine ⟨by decide, by decide⟩

/-- C3 amended: for every in-bounds position, the toggle preserves the
length, changes no other position, and replaces position i's segment by
the same segment with its favorite flag set to the JavaScript negation of
the old value; toggling twice restores the original list exactly whenever
position i's flag was explicitly set (`some b`), and when the flag was
absent (undefined) the double toggle leaves every other position
unchanged but sets position i's flag to an explicit false. -/
theorem C3_toggle_frame_amended (segs : List TranscriptionSegment) (i : Nat)
    (h : i < segs.length) :
    (∃ s, segs[i]? = some s) ∧
    (handleToggleFavorite segs i).length = segs.length ∧
    (∀ j, j ≠ i → (handleToggleFavorite segs i)[j]? = segs[j]?) ∧
    (∀ s, segs[i]? = some s →
        (handleToggleFavorite segs i)[i]? =
          some { s with isFavorite := some (jsNot s.isFavorite) }) ∧
    (∀ s b, segs[i]? = some s → s.isFavorite = some b →
        handleToggleFavorite (handleToggleFavorite segs i) i = segs) ∧
    (∀ s, segs[i]? = some s → s.isFavorite = none →
        (handleToggleFavorite (handleToggleFavorite segs i) i)[i]? =
            some { s with isFavorite := some false } ∧
        (∀ j, j ≠ i →
            (handleToggleFavorite (handleToggleFavorite segs i) i)[j]? = segs[j]?)) := by
  refine ⟨⟨segs[i], List.getElem?_eq_getElem h⟩,
    toggle_length segs i, fun j hj => toggle_getElem_ne segs i j hj,
    fun s hs => toggle_getElem_eq segs i s hs,
    fun s b hs hb => toggle_toggle segs i s b hs hb,
    fun s hs hfav => ⟨?_, fun j hj => ?_⟩⟩
  · have h1 := toggle_getElem_eq segs i s hs
    have h2 := toggle_getElem_eq (handleToggleFavorite segs i) i
      { s with isFavorite := some (jsNot s.isFavorite) } h1
    rw [h2, hfav]
    rfl
  · rw [toggle_getElem_ne (handleToggleFavorite segs i) i j hj,
      toggle_getElem_ne segs i j hj]

/-- C3 witness: the amended toggle properties evaluated on a concrete
two-segment list with an explicitly set favorite flag. -/
theorem C3_toggle_frame_amended_witness :
    (handleToggleFavorite
        [⟨0, 1, "a", "", "", some false⟩, ⟨1, 2, "b", "", "", some true⟩] 0).length =
      ([⟨0, 1, "a", "", "", some false⟩, ⟨1, 2, "b", "", "", some true⟩] :
        List TranscriptionSegment).length ∧
    handleToggleFavorite (handleToggleFavorite
        [⟨0, 1, "a", "", "", some false⟩, ⟨1, 2, "b", "", "", some true⟩] 0) 0 =
      [⟨0, 1, "a", "", "", some false⟩, ⟨1, 2, "b", "", "", some true⟩] :=
  ⟨(C3_toggle_frame_amended
      [⟨0, 1, "a", "", "", some false⟩, ⟨1, 2, "b", "", "", some true⟩] 0 (by decide)).2.1,
   (C3_toggle_frame_amended
      [⟨0, 1, "a", "", "", some false⟩, ⟨1, 2, "b", "", "", some true⟩] 0
      (by decide)).2.2.2.2.1 ⟨0, 1, "a", "", "", some false⟩ false (by decide) rfl⟩

/-! Theorems about the word-definition fallback. -/

/-- C1 counterexample: when the primary (Gemini) request fails, the
DeepSeek credential is configured, and the DeepSeek retry also fails, the
operation surfaces the DeepSeek error (`throw deepSeekError` in the
source), not the original Gemini failure as the claim states. -/
theorem C1_fallback_counterexample :
    getWordDefinition (Except.error "gemini down" : Except String Nat) true
        (Except.error "deepseek down") =
      Except.error (ProviderError.deepseek "deepseek down") ∧
    getWordDefinition (Except.error "gemini down" : Except String Nat) true
        (Except.error "deepseek down") ≠
      Except.error (ProviderError.gemini "gemini down") := by
  refine ⟨rfl, fun h => ?_⟩
  rw [show getWordDefinition (Except.error "gemini down" : Except String Nat) true
      (Except.error "deepseek down") =
      Except.error (ProviderError.deepseek "deepseek down") from rfl] at h
  exact ProviderError.noConfusion (Except.error.inj h)

/-- C1 amended: on a primary failure the operation retries once against
DeepSeek when its credential is configured and returns that retry's value
on success; when the retry also fails it surfaces the DeepSeek failure
(not the original one); only when the DeepSeek credential is not
configured does it surface the original Gemini failure; and a primary
success never reaches the fallback. -/
theorem C1_fallback_amended {α : Type} (ge : String) (cfg : Bool)
    (secondary : Except String α) :
    (cfg = true → ∀ v, secondary = Except.ok v →
        getWordDefinition (Except.error ge) cfg secondary = Except.ok v) ∧
    (cfg = true → ∀ de, secondary = Except.error de →
        getWordDefinition (Except.error ge) cfg secondary =
          Except.error (ProviderError.deepseek de)) ∧
    (cfg = false →
        getWordDefinition (Except.error ge) cfg secondary =
          Except.error (ProviderError.gemini ge)) ∧
    (∀ (primary : Except String α) v, primary = Except.ok v →
        getWordDefinition primary cfg secondary = Except.ok v) := by
  refine ⟨?_, ?_, ?_, ?_⟩
  · rintro rfl v rfl
    rfl
  · rintro rfl de rfl
    rfl
  · rintro rfl
    rfl
  · rintro primary v rfl
    rfl

/-- C1 witness: the amended fallback behaviour evaluated at concrete
outcomes for both providers. -/
theorem C1_fallback_amended_witness :
    getWordDefinition (Except.error "gemini down" : Except String Nat) true
        (Except.error "deepseek down") =
      Except.error (ProviderError.deepseek "deepseek down") ∧
    getWordDefinition (Except.error "gemini down" : Except String Nat) false
        (Except.error "deepseek down") =
      Except.error (ProviderError.gemini "gemini down") :=
  ⟨(C1_fallback_amended "gemini down" true
      (Except.error "deepseek down" : Except String Nat)).2.1 rfl "deepseek down" rfl,
   (C1_fallback_amended "gemini down" false
      (Except.error "deepseek down" : Except String Nat)).2.2.1 rfl⟩

/-! Theorems about the response-parsing helper. -/

theorem stripLeading_fenced (X : List Char) :
    stripLeadingJsonFence ("```json\n".toList ++ X) = X.dropWhile jsIsSpace := by
  unfold stripLeadingJsonFence
  have hcond : ("```json\n".toList ++ X).take 7 = "```json".toList := rfl
  rw [if_pos hcond]
  show ('\n' :: X).dropWhile jsIsSpace = X.dropWhile jsIsSpace
  rw [List.dropWhile_cons, if_pos (show jsIsSpace '\n' = true from rfl)]

theorem stripTrailing_fenced (X : List Char)
    (hX : X.getLast?.all (fun c => !jsIsSpace c) = true) (hne : X ≠ []) :
    stripTrailingFence (X ++ "\n```".toList) = X := by
  unfold stripTrailingFence
  have hrev0 : (X ++ "\n```".toList).reverse = '`' :: '`' :: '`' :: '\n' :: X.reverse := by
    rw [List.reverse_append]
    rfl
  rw [hrev0]
  have hcond : ('`' :: '`' :: '`' :: '\n' :: X.reverse).take 3 = ['`', '`', '`'] := rfl
  rw [if_pos hcond]
  show (('\n' :: X.reverse).dropWhile jsIsSpace).reverse = X
  cases hxr : X.reverse with
  | nil => exact absurd (List.reverse_eq_nil_iff.mp hxr) hne
  | cons y ys =>
    have hy : jsIsSpace y = false := by
      have hlast : X.getLast? = some y := by
        rw [← List.head?_reverse, hxr]
        rfl
      rw [hlast] at hX
      simpa using hX
    rw [List.dropWhile_cons, if_pos (show jsIsSpace '\n' = true from rfl),
      List.dropWhile_cons, if_neg (by simp [hy]), ← hxr, List.reverse_reverse]

/-- C9: the response-parsing helper tolerates a markdown json code fence:
wrapping a payload (whose first and last characters are not whitespace,
as for any JSON value) in the fence yields, after cleaning, exactly the
unfenced payload, so it parses to the same result; and whenever parsing
still fails after the cleaning, the helper throws the parse error rather
than returning a value. -/
theorem C9_clean_parse_fence {α : Type} (parse : String → Option α) (s : String)
    (h1 : s.toList.head?.all (fun c => !jsIsSpace c) = true)
    (h2 : s.toList.getLast?.all (fun c => !jsIsSpace c) = true) :
    cleanText ("```json\n" ++ s ++ "\n```") = s ∧
    (∀ v, parse s = some v →
        cleanAndParseJson parse ("```json\n" ++ s ++ "\n```") = Except.ok v) ∧
    (∀ t, parse (cleanText t) = none →
        cleanAndParseJson parse t = Except.error "Failed to parse AI response") := by
  have hclean : cleanText ("```json\n" ++ s ++ "\n```") = s := by
    unfold cleanText
    have h0 : ("```json\n" ++ s ++ "\n```").toList =
        "```json\n".toList ++ (s.toList ++ "\n```".toList) := by
      show "```json\n".toList ++ s.toList ++ "\n```".toList = _
      rw [List.append_assoc]
    rw [h0, stripLeading_fenced]
    cases hsl : s.toList with
    | nil =>
      have hs : s = "" := by
        rw [← String.asString_toList s, hsl]
        rfl
      subst hs
      rfl
    | cons c cs' =>
      have hc : jsIsSpace c = false := by
        rw [hsl] at h1
        simpa using h1
      rw [List.cons_append, List.dropWhile_cons, if_neg (by simp [hc])]
      rw [← List.cons_append]
      rw [stripTrailing_fenced (c :: cs') (by rw [← hsl]; exact h2) (by simp)]
      rw [← hsl, String.asString_toList]
  refine ⟨hclean, fun v hv => ?_, fun t ht => ?_⟩
  · unfold cleanAndParseJson
    rw [hclean, hv]
  · unfold cleanAndParseJson
    rw [ht]

/-- C9 witness: a concrete parser recognising the payload 42, evaluated
on the fenced and unfenced payload. -/
theorem C9_clean_parse_fence_witness :
    cleanText ("```json\n" ++ "42" ++ "\n```") = "42" ∧
    (∀ v, (fun t => if t = "42" then some (42 : Nat) else none) "42" = some v →
        cleanAndParseJson (fun t => if t = "42" then some (42 : Nat) else none)
          ("```json\n" ++ "42" ++ "\n```") = Except.ok v) ∧
    (∀ t, (fun u => if u = "42" then some (42 : Nat) else none) (cleanText t) = none →
        cleanAndParseJson (fun u => if u = "42" then some (42 : Nat) else none) t =
          Except.error "Failed to parse AI response") :=
  C9_clean_parse_fence (fun t => if t = "42" then some (42 : Nat) else none) "42"
    (by decide) (by decide)

/-! Theorems about the PCM decoder. -/

theorem b64Val_lt (c : Char) (v : Nat) (h : b64Val c = some v) : v < 64 := by
  unfold b64Val at h
  split_ifs at h with h1 h2 h3 h4 h5
  all_goals (injection h with h'; omega)

theorem b64Sextets_lt : ∀ (cs : List Char) (vs : List Nat), b64Sextets cs = some vs →
    ∀ v ∈ vs, v < 64
  | [], vs, h => by
    simp only [b64Sextets, Option.some_inj] at h
    subst h
    simp
  | c :: rest, vs, h => by
    unfold b64Sextets at h
    cases hv : b64Val c with
    | none => rw [hv] at h; exact Option.noConfusion h
    | some v0 =>
      cases hr : b64Sextets rest with
      | none => rw [hv, hr] at h; exact Option.noConfusion h
      | some vs' =>
        rw [hv, hr] at h
        simp only [Option.some_inj] at h
        subst h
        intro v hvmem
        rcases List.mem_cons.mp hvmem with rfl | hmem
        · exact b64Val_lt c v hv
        · exact b64Sextets_lt rest vs' hr v hmem

theorem b64Bytes_lt : ∀ (vs : List Nat) (bs : List Nat), (∀ v ∈ vs, v < 64) →
    b64Bytes vs = some bs → ∀ x ∈ bs, x < 256
  | [], bs, _, h => by
    simp only [b64Bytes, Option.some_inj] at h
    subst h
    simp
  | [a], bs, _, h => Option.noConfusion h
  | [a, b], bs, hlt, h => by
    simp only [b64Bytes, Option.some_inj] at h
    subst h
    have ha : a < 64 := hlt a (by simp)
    have hb : b < 64 := hlt b (by simp)
    intro x hx
    simp only [List.mem_singleton] at hx
    omega
  | [a, b, c], bs, hlt, h => by
    simp only [b64Bytes, Option.some_inj] at h
    subst h
    have ha : a < 64 := hlt a (by simp)
    have hb : b < 64 := hlt b (by simp)
    have hc : c < 64 := hlt c (by simp)
    intro x hx
    rcases List.mem_cons.mp hx with rfl | hx
    · omega
    · simp only [List.mem_singleton] at hx
      omega
  | a :: b :: c :: d :: rest, bs, hlt, h => by
    unfold b64Bytes at h
    cases hr : b64Bytes rest with
    | none => rw [hr] at h; exact Option.noConfusion h
    | some bs' =>
      rw [hr] at h
      simp only [Option.some_inj] at h
      subst h
      have ha : a < 64 := hlt a (by simp)
      have hb : b < 64 := hlt b (by simp)
      have hc : c < 64 := hlt c (by simp)
      have hd : d < 64 := hlt d (by simp)
      intro x hx
      rcases List.mem_cons.mp hx with rfl | hx
      · omega
      rcases List.mem_cons.mp hx with rfl | hx
      · omega
      rcases List.mem_cons.mp hx with rfl | hx
      · omega
      · exact b64Bytes_lt rest bs' (fun v hv => hlt v (by simp [hv])) hr x hx

theorem atob_bytes_lt (s : String) (bytes : List Nat) (h : atob s = some bytes) :
    ∀ x ∈ bytes, x < 256 := by
  unfold atob atobDecode at h
  split_ifs at h with hlen
  cases hv : b64Sextets (atobUnpadded s) with
  | none => rw [hv] at h; exact Option.noConfusion h
  | some vs =>
    rw [hv] at h
    exact b64Bytes_lt vs bytes (b64Sextets_lt (atobUnpadded s) vs hv) h

theorem int16OfBytes_range (lo hi : Nat) (hlo : lo < 256) (hhi : hi < 256) :
    -32768 ≤ int16OfBytes lo hi ∧ int16OfBytes lo hi < 32768 := by
  simp only [int16OfBytes]
  split_ifs with h <;> constructor <;> omega

theorem int16Samples_length : ∀ (bytes : List Nat), bytes.length % 2 = 0 →
    (int16Samples bytes).length = bytes.length / 2
  | [], _ => rfl
  | [x], h => by simp at h
  | lo :: hi :: rest, h => by
    have h' : rest.length % 2 = 0 := by
      simp only [List.length_cons] at h
      omega
    show (int16Samples rest).length + 1 = _
    rw [int16Samples_length rest h']
    simp only [List.length_cons]
    omega

theorem int16Samples_getElem : ∀ (bytes : List Nat) (i : Nat) (v : Int),
    (int16Samples bytes)[i]? = some v →
    ∃ lo hi, bytes[2 * i]? = some lo ∧ bytes[2 * i + 1]? = some hi ∧
      v = int16OfBytes lo hi
  | [], i, v, h => by
    simp only [int16Samples] at h
    simp at h
  | [x], i, v, h => by
    have hnil : int16Samples [x] = [] := rfl
    rw [hnil] at h
    simp at h
  | lo :: hi :: rest, 0, v, h => by
    have heq : int16Samples (lo :: hi :: rest) = int16OfBytes lo hi :: int16Samples rest :=
      rfl
    rw [heq, List.getElem?_cons_zero, Option.some_inj] at h
    exact ⟨lo, hi, by simp, by simp, h.symm⟩
  | lo :: hi :: rest, i + 1, v, h => by
    have heq : int16Samples (lo :: hi :: rest) = int16OfBytes lo hi :: int16Samples rest :=
      rfl
    rw [heq, List.getElem?_cons_succ] at h
    obtain ⟨lo', hi', h1, h2, h3⟩ := int16Samples_getElem rest i v h
    refine ⟨lo', hi', ?_, ?_, h3⟩
    · have harith : 2 * (i + 1) = 2 * i + 1 + 1 := by ring
      rw [harith, List.getElem?_cons_succ, List.getElem?_cons_succ]
      exact h1
    · have harith : 2 * (i + 1) + 1 = (2 * i + 1) + 1 + 1 := by ring
      rw [harith, List.getElem?_cons_succ, List.getElem?_cons_succ]
      exact h2

theorem int16Samples_mem : ∀ (bytes : List Nat), (∀ b ∈ bytes, b < 256) →
    ∀ v ∈ int16Samples bytes, -32768 ≤ v ∧ v < 32768
  | [], _, v, hv => by simp [int16Samples] at hv
  | [x], _, v, hv => by
    have hnil : int16Samples [x] = [] := rfl
    rw [hnil] at hv
    simp at hv
  | lo :: hi :: rest, hb, v, hv => by
    have heq : int16Samples (lo :: hi :: rest) = int16OfBytes lo hi :: int16Samples rest :=
      rfl
    rw [heq] at hv
    rcases List.mem_cons.mp hv with rfl | hv
    · exact int16OfBytes_range lo hi (hb lo (by simp)) (hb hi (by simp))
    · exact int16Samples_mem rest (fun b hbm => hb b (by simp [hbm])) v hv

/-- C10 counterexample: the claim fails on a base64 input that decodes to
an odd number of bytes.  The string "AA==" decodes to the single byte 0,
for which the claim predicates a sample list of length 1 / 2 = 0, but the
source's `new Int16Array(bytes.buffer)` throws a `RangeError` on an odd
byte length, so no samples are produced at all. -/
theorem C10_pcm_counterexample :
    atob "AA==" = some [0] ∧
    playPcmData "AA==" = none ∧
    playPcmData "AA==" ≠ some [] := by
  refine ⟨by decide, by decide, by decide⟩

/-- C10 amended: whenever the decoded byte string has even length (as
every 16-bit PCM payload does), the decoder produces exactly one sample
per byte pair, sample i is the i-th little-endian signed 16-bit integer
of the decoded bytes divided by 32768, and every sample lies in the
half-open interval from -1 (inclusive) to 1 (exclusive); an odd byte
length instead raises a `RangeError` (no samples). -/
theorem C10_pcm_amended (s : String) (bytes : List Nat) (h : atob s = some bytes)
    (heven : bytes.length % 2 = 0) :
    ∃ samples : List ℚ, playPcmData s = some samples ∧
      samples.length = bytes.length / 2 ∧
      (∀ i q, samples[i]? = some q → ∃ lo hi, bytes[2 * i]? = some lo ∧
          bytes[2 * i + 1]? = some hi ∧ q = (int16OfBytes lo hi : ℚ) / 32768) ∧
      (∀ q ∈ samples, -1 ≤ q ∧ q < 1) := by
  refine ⟨(int16Samples bytes).map (fun v : Int => (v : ℚ) / 32768), ?_, ?_, ?_, ?_⟩
  · unfold playPcmData
    rw [h]
    show (if bytes.length % 2 = 0 then _ else none) = _
    rw [if_pos heven]
  · rw [List.length_map, int16Samples_length bytes heven]
  · intro i q hq
    rw [List.getElem?_map] at hq
    cases hv : (int16Samples bytes)[i]? with
    | none => rw [hv] at hq; exact Option.noConfusion hq
    | some v =>
      rw [hv] at hq
      simp only [Option.map_some', Option.some_inj] at hq
      obtain ⟨lo, hi, h1, h2, h3⟩ := int16Samples_getElem bytes i v hv
      exact ⟨lo, hi, h1, h2, by rw [← hq, h3]⟩
  · intro q hq
    rw [List.mem_map] at hq
    obtain ⟨v, hv, rfl⟩ := hq
    have hrange := int16Samples_mem bytes (atob_bytes_lt s bytes h) v hv
    constructor
    · rw [le_div_iff₀ (by norm_num : (0 : ℚ) < 32768)]
      have hcast : (-32768 : ℚ) ≤ (v : ℚ) := by exact_mod_cast hrange.1
      linarith
    · rw [div_lt_one (by norm_num : (0 : ℚ) < 32768)]
      exact_mod_cast hrange.2

/-- C10 witness: the amended PCM property evaluated on the base64 string
"AAE=", which decodes to the two bytes 0 and 1. -/
theorem C10_pcm_amended_witness :
    ∃ samples : List ℚ, playPcmData "AAE=" = some samples ∧
      samples.length = ([0, 1] : List Nat).length / 2 ∧
      (∀ i q, samples[i]? = some q → ∃ lo hi, ([0, 1] : List Nat)[2 * i]? = some lo ∧
          ([0, 1] : List Nat)[2 * i + 1]? = some hi ∧
          q = (int16OfBytes lo hi : ℚ) / 32768) ∧
      (∀ q ∈ samples, -1 ≤ q ∧ q < 1) :=
  C10_pcm_amended "AAE=" [0, 1] (by decide) (by decide)

end LinguaSync
